import Mathlib

/-!
Shallow embedding of the per-instance animation and voxel-shape-transition
engine of the `cv-game` repository (files `src/helpers/animation.rs` and
`src/helpers/voxel_builder.rs`), together with proofs settling the frozen
claims about its specification.

Modelling conventions:
* `f32` values are embedded as exact rationals (`ℚ`); machine rounding is
  abstracted away, the formulas are translated literally.
* `cgmath::Vector3<f32>` becomes the record `V3 ℚ` with componentwise
  operations.
* The f32 library functions `sqrt`, `cos`, `sin` (used only by
  `fibonacci_sphere` and by the `distance` test in the assignment engine)
  have no rational counterpart; they are passed as explicit function
  parameters, so every theorem quantifies over them.
* IEEE NaN matters for one claim only (`fibonacci_sphere` with one point
  divides 0.0 by 0.0); for that function the scalar field is a parameter
  bundled in `FloatOps`, instantiated once with the NaN-tracking carrier
  `Option ℚ` (`none` = NaN) and once with plain `ℚ`.
* `rand` shuffles are nondeterministic; they enter as function parameters
  (`shuf1`, `shuf2`), so theorems hold for every possible shuffle outcome.
* Rust `unwrap`/panic is modelled by returning `Option`: `none` = panic.
-/

/-- `cgmath::Vector3`, componentwise. -/
structure V3 (F : Type) where
  x : F
  y : F
  z : F
  deriving DecidableEq, Repr

abbrev Q3 := V3 ℚ

instance : Add Q3 := ⟨fun a b => ⟨a.x + b.x, a.y + b.y, a.z + b.z⟩⟩
instance : Sub Q3 := ⟨fun a b => ⟨a.x - b.x, a.y - b.y, a.z - b.z⟩⟩
instance : Neg Q3 := ⟨fun a => ⟨-a.x, -a.y, -a.z⟩⟩
instance : Zero Q3 := ⟨⟨0, 0, 0⟩⟩
instance : SMul ℚ Q3 := ⟨fun q a => ⟨q * a.x, q * a.y, q * a.z⟩⟩

/-- Rust `f32::clamp(x, lo, hi)`. -/
def clampQ (x lo hi : ℚ) : ℚ :=
  if x < lo then lo else if x > hi then hi else x

/-- Rust `%` on floats (`a - b * trunc (a / b)`), specialised to the
nonnegative dividends and positive divisors on which the program uses it,
where truncation and floor agree. -/
def rmodQ (a b : ℚ) : ℚ := a - b * ⌊a / b⌋

/-- `animation.rs` free function `ease_in_ease_out_loop` (lines 23-35);
`EaseInEaseOutLoop::ease_in_ease_out_loop` (lines 9-21) is the same text. -/
def ease_in_ease_out_loop (dt delay freq : ℚ) : ℚ :=
  if dt < delay then 0
  else
    let elapsed := rmodQ (dt - delay) (freq * 2)
    let time := if elapsed ≥ freq then (2 * freq - elapsed) / freq else elapsed / freq
    let sqr := time * time
    sqr / (2 * (sqr - time) + 1)

/-- `animation.rs` `get_height_color` (lines 37-44). -/
def get_height_color (height : ℚ) : Q3 :=
  let high_color : Q3 := ⟨9/10, 4/10, 702/1000⟩
  let low_color : Q3 := ⟨8/10, 0, 6/10⟩
  low_color + height • (high_color - low_color)

/-- `animation.rs` `EaseOut::ease_out_cubic` (lines 49-52). -/
def ease_out_cubic (number : ℚ) : ℚ :=
  let t := clampQ number 0 1
  1 - (1 - t) ^ 3

/-- `animation.rs` `EaseInEaseOut::ease_in_ease_out_cubic` (lines 58-65). -/
def ease_in_ease_out_cubic (number : ℚ) : ℚ :=
  let n := clampQ number 0 1
  if n < 1/2 then 4 * n * n * n else 1 - (-2 * n + 2) ^ 3 / 2

/-- `animation.rs` enum `AnimationTransition` (lines 67-72); the wrapped
marker structs are zero-sized, so plain constructors suffice. -/
inductive AnimationTransition where
  | easeOut
  | easeInEaseOut
  | easeInEaseOutLoop
  deriving DecidableEq, Repr

/-- `AnimationTransition::lerp` (animation.rs lines 74-97). -/
def AnimationTransition.lerp (t : AnimationTransition) (start e : Q3)
    (number delay : ℚ) : Q3 :=
  match t with
  | .easeInEaseOut => start + ease_in_ease_out_cubic number • (e - start)
  | .easeInEaseOutLoop =>
      start + (ease_in_ease_out_loop number delay 1 - 1/2) • (e - start)
  | .easeOut => start + ease_out_cubic number • (e - start)

/-- `animation.rs` struct `AnimationPersistent` (lines 105-110). -/
structure AnimationPersistent where
  time : ℚ
  movement_vector : Q3
  animation_transition : AnimationTransition
  deriving DecidableEq, Repr

/-- `animation.rs` struct `AnimationStep` (lines 120-130). -/
structure AnimationStep where
  movement_vector : Q3
  time : ℚ
  reversed : Bool
  activated : Bool
  animating : Bool
  speed : ℚ
  animation_transition : AnimationTransition
  one_time_animation : Bool
  deriving DecidableEq, Repr

/-- `AnimationStep::new` (animation.rs lines 132-153). -/
def AnimationStep.new (movement_vector : Q3) (speed : ℚ) (reversed activated
    one_time_animation : Bool) (animation_transition : AnimationTransition) :
    AnimationStep :=
  { movement_vector := movement_vector
    time := 0
    reversed := reversed
    activated := activated
    speed := speed
    one_time_animation := one_time_animation
    animating := false
    animation_transition := animation_transition }

/-- `animation.rs` enum `AnimationType` (lines 100-103). -/
inductive AnimationType where
  | persistent (p : AnimationPersistent)
  | step (s : AnimationStep)
  deriving DecidableEq, Repr

/-- `animation.rs` struct `Animation` (lines 156-166): the per-instance
animation record. -/
structure Animation where
  activated : Bool
  time : ℚ
  start : Q3
  current_pos : Q3
  grid_pos : Q3
  persistent_animation : List AnimationPersistent
  animations : List AnimationStep
  color : Q3
  deriving DecidableEq, Repr

/-- `animation.rs` struct `AnimationHandler` (lines 168-171). -/
structure AnimationHandler where
  movement_list : List Animation
  disabled : Bool
  deriving DecidableEq, Repr

/-- Rust `Vec::get_mut(index)` followed by an in-place update: modify the
element at `i` when it exists, otherwise do nothing. -/
def modifyIdx {α : Type} : ℕ → (α → α) → List α → List α
  | _, _, [] => []
  | 0, f, x :: xs => f x :: xs
  | n + 1, f, x :: xs => x :: modifyIdx n f xs

/-- `AnimationHandler::disable` (animation.rs lines 214-216). -/
def AnimationHandler.disable (h : AnimationHandler) : AnimationHandler :=
  { h with disabled := true }

/-- `AnimationHandler::enable` (animation.rs lines 217-219). -/
def AnimationHandler.enable (h : AnimationHandler) : AnimationHandler :=
  { h with disabled := false }

/-- `AnimationHandler::set_animation` (animation.rs lines 221-235). -/
def AnimationHandler.set_animation (h : AnimationHandler) (index : ℕ)
    (animation_type : AnimationType) : AnimationHandler :=
  if h.disabled then h
  else
    { h with
      movement_list :=
        modifyIdx index
          (fun animation =>
            match animation_type with
            | .persistent p =>
                { animation with
                  persistent_animation := animation.persistent_animation ++ [p] }
            | .step s =>
                { animation with animations := animation.animations ++ [s] })
          h.movement_list }

/-- `AnimationHandler::is_locked` (animation.rs lines 237-247), translated
as the same double fold over records and steps. -/
def AnimationHandler.is_locked (h : AnimationHandler) : Bool :=
  h.movement_list.foldl
    (fun locked animation =>
      animation.animations.foldl
        (fun l step => if step.one_time_animation then step.one_time_animation else l)
        locked)
    false

/-- `AnimationHandler::set_animation_state` (animation.rs lines 249-259). -/
def AnimationHandler.set_animation_state (h : AnimationHandler) (index : ℕ)
    (state : Bool) : AnimationHandler :=
  if h.disabled then h
  else
    { h with
      movement_list :=
        modifyIdx index
          (fun animation =>
            { animation with
              animations := animation.animations.map
                (fun step => { step with activated := state, animating := state }) })
          h.movement_list }

/-- `AnimationHandler::reverse` (animation.rs lines 261-267). Note: unlike
`set_animation`, `set_animation_state` and `animate`, this method performs
no `disabled` check in the source. -/
def AnimationHandler.reverse (h : AnimationHandler) : AnimationHandler :=
  { h with
    movement_list :=
      h.movement_list.map
        (fun animation =>
          { animation with
            animations := animation.animations.map
              (fun step => { step with reversed := true }) }) }

/-- Body of the per-step loop of `AnimationHandler::animate`
(animation.rs lines 323-357).  The accumulator carries the record's
mutable `start`, `grid_pos` and the running `step_delta`, together with
the steps written back so far (`iter_mut` updates them in place). -/
def stepLoop (delta : ℚ) (st : (Q3 × Q3 × Q3) × List AnimationStep)
    (step : AnimationStep) : (Q3 × Q3 × Q3) × List AnimationStep :=
  let start := st.1.1
  let grid := st.1.2.1
  let sdelta := st.1.2.2
  let acc := st.2
  if !step.activated then ((start, grid, sdelta), acc ++ [step])
  else
      let t :=
        if step.reversed then clampQ (step.time - delta * step.speed) 0 1
        else clampQ (step.time + delta * step.speed) 0 1
      let step_movement : Q3 :=
        if step.reversed then
          (0 : Q3) -
            (step.animation_transition.lerp (start + step.movement_vector) start t 0 -
              (start + step.movement_vector))
        else
          (0 : Q3) +
            (step.animation_transition.lerp start (start + step.movement_vector) t 0 -
              start)
      let animating := if t = 0 ∨ t = 1 then false else step.animating
      let startGrid :=
        if step.one_time_animation ∧ t = 1 then
          (start + step_movement, start + step_movement + step_movement)
        else (start, grid)
      ((startGrid.1, startGrid.2, sdelta + step_movement),
        acc ++ [{ step with time := t, animating := animating }])

/-- The per-step state update performed by the step loop of `animate`
(animation.rs lines 325-350): skipped steps are unchanged; processed
steps have their time advanced (down when reversed) by `dt*speed`,
clamped to [0,1], and `animating` cleared at the bounds.  (The loop's
effect on the step itself depends only on the step and `delta`.) -/
def stepUpdate (delta : ℚ) (step : AnimationStep) : AnimationStep :=
  if !step.activated then step
  else
    let t :=
      if step.reversed then clampQ (step.time - delta * step.speed) 0 1
      else clampQ (step.time + delta * step.speed) 0 1
    { step with time := t, animating := if t = 0 ∨ t = 1 then false else step.animating }

/-- One `activated` record's update inside `AnimationHandler::animate`
(animation.rs lines 305-364). -/
def animateOne (dt : ℚ) (a : Animation) : Animation :=
  let delta := dt
  let time := a.time + dt
  let delay := (a.current_pos.x + a.current_pos.z) * (5/100)
  let persistents := a.persistent_animation.map fun p => { p with time := p.time + delta }
  let total_movement :=
    persistents.foldl
      (fun tm p =>
        tm +
          (p.animation_transition.lerp a.start (a.start + p.movement_vector) p.time delay -
            a.start))
      a.start
  let lerp := 1 * ease_in_ease_out_loop time delay 1
  let color := get_height_color lerp
  let sres := a.animations.foldl (stepLoop delta) ((a.start, a.grid_pos, 0), [])
  let start := sres.1.1
  let step_delta := sres.1.2.2
  let steps := sres.2
  { a with
    time := time
    persistent_animation := persistents
    color := color
    start := start
    grid_pos := start + step_delta
    current_pos := total_movement + step_delta
    animations :=
      steps.filter fun step =>
        !((step.reversed && decide (step.time = 0)) ||
          (step.one_time_animation && decide (step.time = 1))) }

/-- `AnimationHandler::animate` (animation.rs lines 295-366): early return
when disabled, otherwise update every record whose `activated` flag passes
the `filter`. -/
def AnimationHandler.animate (h : AnimationHandler) (dt : ℚ) : AnimationHandler :=
  if h.disabled then h
  else
    { h with
      movement_list :=
        h.movement_list.map fun a => if a.activated then animateOne dt a else a }

/-- `entity.rs` struct `Instance` (lines 312-320); the quaternion
`rotation` field is never read or written by the animation engine and is
omitted from the embedding. -/
structure Instance where
  position : Q3
  should_render : Bool
  scale : ℚ
  color : Q3
  size : Q3
  bounding : Q3
  deriving DecidableEq, Repr

/-- `AnimationHandler::update_instance` (animation.rs lines 368-377);
returns the updated instance. Performs no `disabled` check in the source. -/
def AnimationHandler.update_instance (h : AnimationHandler) (index : ℕ)
    (inst : Instance) : Instance :=
  match h.movement_list.get? index with
  | none => inst
  | some animation =>
    if !animation.activated then inst
    else
      { inst with
        position := animation.current_pos
        bounding := inst.size + animation.current_pos
        color := animation.color }

/-!  ### Shape assignment engine (`voxel_builder.rs`)  -/

/-- Bundled scalar operations of the float carrier used by
`fibonacci_sphere`.  Instantiated with the NaN-tracking carrier
`Option ℚ` (to settle the NaN claim) and with plain `ℚ` (inside the
assignment engine, whose claims never inspect the sphere coordinates). -/
structure FloatOps (F : Type) where
  ofQ : ℚ → F
  add : F → F → F
  sub : F → F → F
  mul : F → F → F
  div : F → F → F
  fsqrt : F → F
  fcos : F → F
  fsin : F → F

/-- The value of the `f32` literal `std::f32::consts::PI`
(`0x40490FDB` = `13176795 * 2 ^ (-22)`), as an exact rational. -/
def piF32 : ℚ := 13176795 / 4194304

/-- Loop body of `voxel_builder.rs` `fibonacci_sphere` (lines 215-223),
hoisted into a named function (the loop-invariant constant `phi` of line
213 is recomputed per point; it is a pure expression, so the value is
identical). -/
def fibPoint {F : Type} (ops : FloatOps F) (points : ℕ) (scalar : F) (n : ℕ) :
    V3 F :=
  let phi := ops.mul (ops.ofQ piF32) (ops.sub (ops.fsqrt (ops.ofQ 5)) (ops.ofQ 1))
  let y := ops.sub (ops.ofQ 1)
    (ops.mul (ops.div (ops.ofQ n) (ops.sub (ops.ofQ points) (ops.ofQ 1))) (ops.ofQ 2))
  let radius := ops.fsqrt (ops.sub (ops.ofQ 1) (ops.mul y y))
  let theta := ops.mul phi (ops.ofQ n)
  let x := ops.mul (ops.fcos theta) radius
  let z := ops.mul (ops.fsin theta) radius
  ⟨ops.mul x scalar, ops.mul y scalar, ops.mul z scalar⟩

/-- `voxel_builder.rs` `fibonacci_sphere` (lines 211-227), parametric in
the scalar carrier. -/
def fibonacci_sphere {F : Type} (ops : FloatOps F) (points : ℕ) (scalar : F) :
    List (V3 F) :=
  (List.range points).foldl
    (fun vecs n => vecs ++ [fibPoint ops points scalar n]) []

/-- NaN-tracking float carrier: `none` is NaN, `some q` a finite value. -/
abbrev FQ := Option ℚ

/-- Lift a total unary rational function with NaN propagation. -/
def fqLift1 (f : ℚ → ℚ) : FQ → FQ
  | none => none
  | some a => some (f a)

/-- Lift a total binary rational function with NaN propagation. -/
def fqLift2 (f : ℚ → ℚ → ℚ) : FQ → FQ → FQ
  | some a, some b => some (f a b)
  | _, _ => none

/-- IEEE-faithful division on the paths the program executes: NaN operands
propagate, and a zero divisor yields NaN (the program only ever divides by
zero in the form `0.0 / 0.0`, which is NaN). -/
def fqDiv : FQ → FQ → FQ
  | some a, some b => if b = 0 then none else some (a / b)
  | _, _ => none

/-- `FloatOps` over the NaN-tracking carrier; the f32 library functions
`sqrt`, `cos`, `sin` are parameters (on every execution path of the
program their finite arguments are in their domains, so lifting them with
plain NaN propagation is faithful). -/
def fqOps (sq co si : ℚ → ℚ) : FloatOps FQ :=
  { ofQ := some
    add := fqLift2 (· + ·)
    sub := fqLift2 (· - ·)
    mul := fqLift2 (· * ·)
    div := fqDiv
    fsqrt := fqLift1 sq
    fcos := fqLift1 co
    fsin := fqLift1 si }

/-- `FloatOps` over plain `ℚ` (used where no claim depends on NaN or on
the transcendental values; note `q / 0 = 0` in `ℚ` where f32 would give
NaN or an infinity — no claim inspects coordinates produced that way). -/
def qOps (sq co si : ℚ → ℚ) : FloatOps ℚ :=
  { ofQ := id
    add := (· + ·)
    sub := (· - ·)
    mul := (· * ·)
    div := (· / ·)
    fsqrt := sq
    fcos := co
    fsin := si }

/-- `voxel_builder.rs` struct `Object` (lines 12-15). -/
structure Object where
  cubes : List Q3
  color : List Q3
  deriving DecidableEq, Repr

/-- `voxel_builder.rs` struct `VoxelHandler` (lines 17-23); the `HashMap`
catalog becomes an association list, the unused `voxels`/`current_object`
fields are omitted. -/
structure VoxelHandler (T : Type) where
  voxels_map : List (T × Object)
  current_voxel : Option T
  current_cubes : List ℕ
  deriving DecidableEq, Repr

/-- `VoxelHandler::get_object` (voxel_builder.rs lines 71-77): `HashMap`
lookup as association-list lookup. -/
def VoxelHandler.get_object {T : Type} [DecidableEq T] (s : VoxelHandler T)
    (current_object : T) : Option Object :=
  (s.voxels_map.find? fun p => p.1 = current_object).map (·.2)

/-- Rust `Vec::pop()`: removes and returns the last element. -/
def popLast? {α : Type} (l : List α) : Option (α × List α) :=
  match l.getLast? with
  | none => none
  | some x => some (x, l.dropLast)

/-- Modelled from the spec: `AnimationHandler::set_manual_animation_color`
is called at voxel_builder.rs line 155 but its definition is not among the
provided sources.  Per the spec the engine writes only the record's
`color` (the per-cube object color); it touches no other field. -/
def AnimationHandler.set_manual_animation_color (h : AnimationHandler)
    (index : ℕ) (color : Q3) : AnimationHandler :=
  { h with
    movement_list := modifyIdx index (fun a => { a with color := color }) h.movement_list }

/-- Modelled from the spec: `AnimationHandler::set_animated_color` is
called at voxel_builder.rs line 196 but its definition is not among the
provided sources.  Per the spec it switches the record back to the
height-ramp color; modelled as writing the ramp color at blend 0,
touching no other field. -/
def AnimationHandler.set_animated_color (h : AnimationHandler) (index : ℕ) :
    AnimationHandler :=
  { h with
    movement_list :=
      modifyIdx index (fun a => { a with color := get_height_color 0 }) h.movement_list }

/-- `cgmath` `Vector3::distance(v, w) <= 500.0` as it appears at
voxel_builder.rs lines 178-183, with the f32 `sqrt` as the parameter
`sq`. -/
def distToOriginLE500 (sq : ℚ → ℚ) (v : Q3) : Bool :=
  decide (sq (v.x * v.x + v.y * v.y + v.z * v.z) ≤ 500)

/-- Body of the assignment loop of `transition_to_object_base`
(voxel_builder.rs lines 138-160), hoisted into a named function.  The
accumulator carries the shuffled pool, the new in-use set and the
registry. -/
def assignStep (amplify : ℚ) (is_onetime use_object_color : Bool)
    (obj : Object) (st : List ℕ × List ℕ × AnimationHandler) (i : ℕ) :
    Option (List ℕ × List ℕ × AnimationHandler) := do
  let cc := st.1
  let new_current_cubes := st.2.1
  let hh := st.2.2
  let cube ← obj.cubes.get? i
  let popped ← popLast? cc
  let instance_index := popped.1
  let cc' := popped.2
  let animation ← hh.movement_list.get? instance_index
  let movement_vector := cube - animation.grid_pos
  let anim := AnimationType.step
    (AnimationStep.new (amplify • movement_vector) (2/5) false false
      is_onetime .easeInEaseOut)
  let hh ←
    if use_object_color then
      (obj.color.get? i).map fun color =>
        hh.set_manual_animation_color instance_index color
    else some hh
  let hh := hh.set_animation instance_index anim
  let hh := hh.set_animation_state instance_index true
  pure (cc', new_current_cubes ++ [instance_index], hh)

/-- Body of the released-instances loop of `transition_to_object_base`
(voxel_builder.rs lines 173-200), hoisted into a named function.  The
accumulator carries the remaining sphere points and the registry. -/
def releaseStep (sq : ℚ → ℚ) (is_onetime : Bool)
    (st : List Q3 × AnimationHandler) (i : ℕ) :
    Option (List Q3 × AnimationHandler) := do
  let circ := st.1
  let hh := st.2
  let animation ← hh.movement_list.get? i
  let popped ← popLast? circ
  let point := popped.1
  let circ' := popped.2
  let movement_vector :=
    if distToOriginLE500 sq animation.grid_pos then
      (⟨point.x, point.y, point.z⟩ : Q3) - animation.grid_pos
    else (0 : Q3)
  let anim := AnimationType.step
    (AnimationStep.new movement_vector (1/4) false false is_onetime
      .easeInEaseOut)
  let hh := hh.set_animated_color i
  let hh := hh.set_animation i anim
  let hh := hh.set_animation_state i true
  pure (circ', hh)

/-- `VoxelHandler::transition_to_object_base` (voxel_builder.rs lines
87-208).  `sq`, `co`, `si` stand for the f32 `sqrt`/`cos`/`sin`; `shuf1`
and `shuf2` are the outcomes of the two `shuffle(&mut rng)` calls (lines
125 and 136); `none` models a panic of one of the `unwrap()` calls. -/
def transitionToObjectBase {T : Type} [DecidableEq T]
    (sq co si : ℚ → ℚ) (shuf1 shuf2 : List ℕ → List ℕ)
    (s : VoxelHandler T) (object : T) (animation_handler : AnimationHandler)
    (amplify : ℚ) (is_onetime use_object_color : Bool) :
    Option (VoxelHandler T × AnimationHandler) :=
  let s1 := { s with current_voxel := some object }
  let current_cubes := s.current_cubes
  match s.get_object object with
  | none => some (s1, animation_handler)
  | some obj =>
    if obj.cubes.length > animation_handler.movement_list.length then
      some (s1, animation_handler)
    else
      let instance_indices := List.range animation_handler.movement_list.length
      let current_cubes :=
        if current_cubes.isEmpty then instance_indices else current_cubes
      let instance_indices_in_order :=
        List.range animation_handler.movement_list.length
      let cube_indices_len := obj.cubes.length
      let current_cubes_len := current_cubes.length
      do
        let current_cubes ←
          if cube_indices_len > current_cubes_len then
            let cube_indicees_excluded :=
              shuf1 (instance_indices.filter fun i => !current_cubes.contains i)
            (List.range (cube_indices_len - current_cubes_len)).foldlM
              (fun cc n => (cube_indicees_excluded.get? n).map fun elem => cc ++ [elem])
              current_cubes
          else
            some current_cubes
        let current_cubes := shuf2 current_cubes
        let assigned ←
          (List.range obj.cubes.length).foldlM
            (assignStep amplify is_onetime use_object_color obj)
            (current_cubes, ([] : List ℕ), animation_handler)
        let new_current_cubes := assigned.2.1
        let remaining_indices :=
          instance_indices_in_order.filter fun i => !new_current_cubes.contains i
        let circle :=
          fibonacci_sphere (qOps sq co si) remaining_indices.length (750 : ℚ)
        let released ←
          remaining_indices.foldlM (releaseStep sq is_onetime)
            (circle, assigned.2.2)
        pure ({ s1 with current_cubes := new_current_cubes }, released.2)

/-- `VoxelHandler::explode_object` (voxel_builder.rs lines 79-82); the
`unwrap()` on `current_voxel` panics (`none`) when no transition has set a
current shape. -/
def explodeObject {T : Type} [DecidableEq T]
    (sq co si : ℚ → ℚ) (shuf1 shuf2 : List ℕ → List ℕ)
    (s : VoxelHandler T) (animation_handler : AnimationHandler) (amplify : ℚ) :
    Option (VoxelHandler T × AnimationHandler) :=
  match s.current_voxel with
  | none => none
  | some current_voxel =>
      transitionToObjectBase sq co si shuf1 shuf2 s current_voxel
        animation_handler amplify false false

/-- `VoxelHandler::transition_to_object` (voxel_builder.rs lines 83-85). -/
def transitionToObject {T : Type} [DecidableEq T]
    (sq co si : ℚ → ℚ) (shuf1 shuf2 : List ℕ → List ℕ)
    (s : VoxelHandler T) (object : T) (animation_handler : AnimationHandler) :
    Option (VoxelHandler T × AnimationHandler) :=
  transitionToObjectBase sq co si shuf1 shuf2 s object animation_handler 1 true false

/-!  ### Concrete sample states used by witnesses and counterexamples  -/

/-- A forward, activated, non-one-shot step with unit displacement. -/
def sampleStepFwd : AnimationStep :=
  AnimationStep.new ⟨1, 0, 0⟩ 1 false true false .easeInEaseOut

/-- A single activated record holding `sampleStepFwd`. -/
def sampleRecord : Animation :=
  { activated := true
    time := 0
    start := ⟨0, 0, 0⟩
    current_pos := ⟨0, 0, 0⟩
    grid_pos := ⟨0, 0, 0⟩
    persistent_animation := []
    animations := [sampleStepFwd]
    color := ⟨0, 0, 0⟩ }

/-- A disabled registry holding `sampleRecord`. -/
def sampleDisabledHandler : AnimationHandler :=
  { movement_list := [sampleRecord], disabled := true }

/-- A render instance with unit size. -/
def sampleInstance : Instance :=
  { position := ⟨0, 0, 0⟩
    should_render := true
    scale := 1
    color := ⟨0, 0, 0⟩
    size := ⟨1, 1, 1⟩
    bounding := ⟨1, 1, 1⟩ }

/-- An enabled registry with no records. -/
def emptyHandler : AnimationHandler := { movement_list := [], disabled := false }

/-- An assignment engine with an empty catalog and no current shape. -/
def emptyVoxelState : VoxelHandler ℕ :=
  { voxels_map := [], current_voxel := none, current_cubes := [] }

/-- A fresh one-shot forward step with unit speed. -/
def c1Step : AnimationStep :=
  AnimationStep.new ⟨1, 2, 3⟩ 1 false true true .easeInEaseOut

/-- A single activated record holding `c1Step`. -/
def c1Record : Animation :=
  { activated := true
    time := 0
    start := ⟨0, 0, 0⟩
    current_pos := ⟨0, 0, 0⟩
    grid_pos := ⟨0, 0, 0⟩
    persistent_animation := []
    animations := [c1Step]
    color := ⟨0, 0, 0⟩ }

/-- A reversed mid-flight step at time 1 with unit speed. -/
def c7Step : AnimationStep :=
  { movement_vector := ⟨2, 0, 0⟩
    time := 1
    reversed := true
    activated := true
    animating := true
    speed := 1
    animation_transition := .easeInEaseOut
    one_time_animation := false }

/-- A single activated record holding `c7Step`, anchored at `(3,0,0)`. -/
def c7Record : Animation :=
  { activated := true
    time := 0
    start := ⟨3, 0, 0⟩
    current_pos := ⟨5, 0, 0⟩
    grid_pos := ⟨3, 0, 0⟩
    persistent_animation := []
    animations := [c7Step]
    color := ⟨0, 0, 0⟩ }

/-- The list of all records' anchors. -/
def startsOf (h : AnimationHandler) : List Q3 :=
  h.movement_list.map Animation.start

/-- Every step of every record is non-one-shot. -/
def NoOneShot (h : AnimationHandler) : Prop :=
  ∀ a ∈ h.movement_list, ∀ st ∈ a.animations, st.one_time_animation = false

/-- Transfer invariant between two registry states: the anchors are the
same, and freedom from one-shot steps is preserved. -/
def Pres (h0 h1 : AnimationHandler) : Prop :=
  startsOf h1 = startsOf h0 ∧ (NoOneShot h0 → NoOneShot h1)

/-- A one-cube shape. -/
def c4Object : Object := { cubes := [⟨5, 0, 0⟩], color := [⟨0, 0, 0⟩] }

/-- An engine whose current shape is `c4Object`, fully assigned. -/
def c4State : VoxelHandler ℕ :=
  { voxels_map := [(0, c4Object)], current_voxel := some 0, current_cubes := [0] }

/-- A quiescent record at the origin with no step animations. -/
def c4Record : Animation :=
  { activated := true
    time := 0
    start := ⟨0, 0, 0⟩
    current_pos := ⟨0, 0, 0⟩
    grid_pos := ⟨0, 0, 0⟩
    persistent_animation := []
    animations := []
    color := ⟨0, 0, 0⟩ }

/-- An enabled single-record registry for `c4State`. -/
def c4Handler : AnimationHandler := { movement_list := [c4Record], disabled := false }

/-- An enabled registry holding `sampleRecord`. -/
def sampleEnabledHandler : AnimationHandler :=
  { movement_list := [sampleRecord], disabled := false }

/-- The step queued by the explosion of `c4State` (displacement
`(5,0,0) - (0,0,0)` amplified by 25, speed 0.4, non-one-shot, activated
by `set_animation_state`). -/
def c4ExplodedStep : AnimationStep :=
  { movement_vector := ⟨125, 0, 0⟩
    time := 0
    reversed := false
    activated := true
    animating := true
    speed := 2/5
    animation_transition := .easeInEaseOut
    one_time_animation := false }

/-- The registry after `explode_object` on `c4State`/`c4Handler`. -/
def c4ExplodedHandler : AnimationHandler :=
  { movement_list := [{ c4Record with animations := [c4ExplodedStep] }]
    disabled := false }

/-!  ### Theorems  -/

theorem Q3.add_def (a b : Q3) : a + b = ⟨a.x + b.x, a.y + b.y, a.z + b.z⟩ := rfl

theorem Q3.sub_def (a b : Q3) : a - b = ⟨a.x - b.x, a.y - b.y, a.z - b.z⟩ := rfl

theorem Q3.smul_def (q : ℚ) (a : Q3) : q • a = ⟨q * a.x, q * a.y, q * a.z⟩ := rfl

theorem Q3.zero_def : (0 : Q3) = ⟨0, 0, 0⟩ := rfl

theorem Q3.add_zero (a : Q3) : a + 0 = a := by
  cases a; simp [Q3.add_def, Q3.zero_def]

theorem Q3.one_smul (a : Q3) : (1 : ℚ) • a = a := by
  cases a; simp [Q3.smul_def]

theorem Q3.zero_smul (a : Q3) : (0 : ℚ) • a = 0 := by
  cases a; simp [Q3.smul_def, Q3.zero_def]

theorem Q3.add_sub_cancel (a b : Q3) : a + b - a = b := by
  cases a; cases b
  simp [Q3.add_def, Q3.sub_def]

theorem Q3.sub_self (a : Q3) : a - a = 0 := by
  cases a; simp [Q3.sub_def, Q3.zero_def]

theorem Q3.zero_add (a : Q3) : 0 + a = a := by
  cases a; simp [Q3.add_def, Q3.zero_def]

theorem Q3.sub_zero (a : Q3) : a - 0 = a := by
  cases a; simp [Q3.sub_def, Q3.zero_def]

/-- Adding one full divisor does not change the Rust float remainder. -/
theorem rmodQ_add_self (a b : ℚ) (hb : b ≠ 0) : rmodQ (a + b) b = rmodQ a b := by
  unfold rmodQ
  have h : (a + b) / b = a / b + 1 := by field_simp
  rw [h, Int.floor_add_one]
  push_cast
  ring

theorem rmodQ_zero (b : ℚ) : rmodQ 0 b = 0 := by
  unfold rmodQ; simp

theorem rmodQ_half (p : ℚ) (hp : p ≠ 0) : rmodQ p (p * 2) = p := by
  unfold rmodQ
  have h : p / (p * 2) = 1 / 2 := by
    rw [← div_div, div_self hp]
  rw [h]
  have h0 : ⌊(1 / 2 : ℚ)⌋ = 0 :=
    Int.floor_eq_zero_iff.mpr ⟨by norm_num, by norm_num⟩
  rw [h0]
  push_cast
  ring

theorem rmodQ_double (p : ℚ) (hp : p ≠ 0) : rmodQ (2 * p) (p * 2) = 0 := by
  unfold rmodQ
  have h : 2 * p / (p * 2) = 1 := by
    rw [mul_comm p 2]
    exact div_self (mul_ne_zero two_ne_zero hp)
  rw [h]
  have h1 : ⌊(1 : ℚ)⌋ = 1 := Int.floor_one
  rw [h1]
  push_cast
  ring

/-- C5: for `delay ≥ 0`, `period > 0`: `ease_in_ease_out_loop` returns 0
before the delay, is `2*period`-periodic after it, and takes the values
0, 1, 0 at `delay`, `delay+period`, `delay+2*period`. -/
theorem C5_ease_loop_periodic (elapsed delay period : ℚ)
    (hdelay : 0 ≤ delay) (hperiod : 0 < period) :
    (elapsed < delay → ease_in_ease_out_loop elapsed delay period = 0) ∧
    (delay ≤ elapsed →
      ease_in_ease_out_loop (elapsed + 2 * period) delay period =
        ease_in_ease_out_loop elapsed delay period) ∧
    ease_in_ease_out_loop delay delay period = 0 ∧
    ease_in_ease_out_loop (delay + period) delay period = 1 ∧
    ease_in_ease_out_loop (delay + 2 * period) delay period = 0 := by
  have hp0 : period ≠ 0 := ne_of_gt hperiod
  refine ⟨?_, ?_, ?_, ?_, ?_⟩
  · intro hlt
    unfold ease_in_ease_out_loop
    rw [if_pos hlt]
  · intro he
    unfold ease_in_ease_out_loop
    rw [if_neg (by linarith), if_neg (not_lt.mpr he)]
    have h : elapsed + 2 * period - delay = elapsed - delay + period * 2 := by ring
    rw [h, rmodQ_add_self _ _ (by positivity)]
  · unfold ease_in_ease_out_loop
    rw [if_neg (lt_irrefl delay)]
    simp only [sub_self, rmodQ_zero]
    rw [if_neg (not_le.mpr hperiod)]
    simp
  · unfold ease_in_ease_out_loop
    rw [if_neg (by linarith)]
    have h : delay + period - delay = period := by ring
    rw [h, rmodQ_half period hp0]
    have h2 : (2 * period - period) / period = 1 := by
      rw [show 2 * period - period = period by ring, div_self hp0]
    simp only [ge_iff_le, le_refl, if_true, h2]
    norm_num
  · unfold ease_in_ease_out_loop
    rw [if_neg (by linarith)]
    have h : delay + 2 * period - delay = 2 * period := by ring
    rw [h, rmodQ_double period hp0]
    simp [hperiod.not_le]

theorem C5_ease_loop_periodic_witness :
    (0 : ℚ) ≤ 0 ∧ (0 : ℚ) < 1 ∧ ease_in_ease_out_loop (0 + 1) 0 1 = 1 :=
  ⟨le_refl 0, one_pos,
    (C5_ease_loop_periodic 1 0 1 (le_refl 0) one_pos).2.2.2.1⟩

/-- Accumulating a boolean flag through `if p x then p x else acc` is the
same as or-ing with `List.any`. -/
theorem foldl_or_any {α : Type} (p : α → Bool) :
    ∀ (l : List α) (b : Bool),
      l.foldl (fun acc x => if p x then p x else acc) b = (b || l.any p) := by
  intro l
  induction l with
  | nil => intro b; simp
  | cons x xs ih =>
      intro b
      simp only [List.foldl_cons, List.any_cons, ih]
      cases hx : p x
      · simp [hx]
      · simp [hx]

/-- C6: `is_locked` is true iff some record's step list holds a one-shot
step animation. -/
theorem C6_is_locked_iff (h : AnimationHandler) :
    h.is_locked = true ↔
      ∃ a ∈ h.movement_list, ∃ s ∈ a.animations, s.one_time_animation = true := by
  unfold AnimationHandler.is_locked
  have outer : ∀ (l : List Animation) (b : Bool),
      l.foldl
          (fun locked animation =>
            animation.animations.foldl
              (fun l' step =>
                if step.one_time_animation then step.one_time_animation else l')
              locked)
          b
        = (b || l.any fun a => a.animations.any (·.one_time_animation)) := by
    intro l
    induction l with
    | nil => intro b; simp
    | cons a as ih =>
        intro b
        rw [List.foldl_cons, foldl_or_any, ih, List.any_cons]
        cases b <;>
          cases hx : a.animations.any (fun s => s.one_time_animation) <;>
            simp [hx]
  rw [outer]
  simp [List.any_eq_true]

/-- C3 counterexample: on a disabled registry, `reverse` is not a no-op —
the source method performs no `disabled` check, so it flips the step's
`reversed` flag even while the registry is frozen. -/
theorem C3_counterexample :
    sampleDisabledHandler.disabled = true ∧
      sampleDisabledHandler.reverse ≠ sampleDisabledHandler := by
  refine ⟨rfl, ?_⟩
  intro hc
  have h1 :=
    congrArg
      (fun hh => hh.movement_list.map fun a => a.animations.map (·.reversed)) hc
  simp [sampleDisabledHandler, AnimationHandler.reverse, sampleRecord,
    sampleStepFwd, AnimationStep.new] at h1

/-- C3 (amended): while the registry is disabled, `set_animation`,
`set_animation_state` and `animate` are no-ops and `update_instance` still
writes the resolved position, bounding and color into the given instance —
but `reverse` is applied even while disabled (it flips `reversed` on every
step of every record unconditionally). -/
theorem C3_disabled_freeze (h : AnimationHandler) (i : ℕ)
    (at_ : AnimationType) (state : Bool) (dt : ℚ) (inst : Instance)
    (a : Animation) (hdis : h.disabled = true) :
    h.set_animation i at_ = h ∧
    h.set_animation_state i state = h ∧
    h.animate dt = h ∧
    (h.movement_list.get? i = some a → a.activated = true →
      (h.update_instance i inst).position = a.current_pos ∧
      (h.update_instance i inst).bounding = inst.size + a.current_pos ∧
      (h.update_instance i inst).color = a.color) ∧
    h.reverse.movement_list =
      h.movement_list.map (fun an =>
        { an with
          animations := an.animations.map fun st => { st with reversed := true } }) := by
  refine ⟨?_, ?_, ?_, ?_, rfl⟩
  · unfold AnimationHandler.set_animation
    rw [hdis]
    rfl
  · unfold AnimationHandler.set_animation_state
    rw [hdis]
    rfl
  · unfold AnimationHandler.animate
    rw [hdis]
    rfl
  · intro hg ha
    unfold AnimationHandler.update_instance
    rw [hg]
    simp [ha]

theorem C3_disabled_freeze_witness :
    sampleDisabledHandler.animate 1 = sampleDisabledHandler ∧
      (sampleDisabledHandler.update_instance 0 sampleInstance).position =
        sampleRecord.current_pos :=
  ⟨(C3_disabled_freeze sampleDisabledHandler 0 (.step sampleStepFwd) true 1
      sampleInstance sampleRecord rfl).2.2.1,
    ((C3_disabled_freeze sampleDisabledHandler 0 (.step sampleStepFwd) true 1
        sampleInstance sampleRecord rfl).2.2.2.1 rfl rfl).1⟩

/-- C9: calling `explode_object` while `current_voxel` is still `None`
panics on the `unwrap` (modelled as `none`) rather than performing a
logged no-op. -/
theorem C9_explode_panics {T : Type} [DecidableEq T] (sq co si : ℚ → ℚ)
    (sf1 sf2 : List ℕ → List ℕ) (s : VoxelHandler T) (h : AnimationHandler)
    (amplify : ℚ) (hcv : s.current_voxel = none) :
    explodeObject sq co si sf1 sf2 s h amplify = none := by
  unfold explodeObject
  rw [hcv]

theorem C9_explode_panics_witness :
    emptyVoxelState.current_voxel = none ∧
      explodeObject id id id id id emptyVoxelState emptyHandler 25 = none :=
  ⟨rfl, C9_explode_panics id id id id id emptyVoxelState emptyHandler 25 rfl⟩

/-- C2 counterexample: a transition to a shape identifier absent from the
catalog does abort, but it still overwrites the engine's current-shape
field (`current_voxel`) before validating, so the state is not unchanged. -/
theorem C2_counterexample :
    transitionToObject id id id id id emptyVoxelState 5 emptyHandler =
      some ({ emptyVoxelState with current_voxel := some 5 }, emptyHandler) ∧
      ({ emptyVoxelState with current_voxel := some 5 } : VoxelHandler ℕ) ≠
        emptyVoxelState := by
  refine ⟨rfl, ?_⟩
  intro hc
  exact Option.noConfusion (congrArg VoxelHandler.current_voxel hc)

/-- C2 (amended): when the requested shape identifier is absent from the
catalog, or the shape has more cubes than there are instances,
`transition_to_object_base` aborts: `current_cubes` is unchanged, the
animation registry is untouched (zero animations queued) — but the
current-shape field `current_voxel` has already been overwritten with the
requested identifier. -/
theorem C2_abort_behaviour {T : Type} [DecidableEq T] (sq co si : ℚ → ℚ)
    (sf1 sf2 : List ℕ → List ℕ) (s : VoxelHandler T) (obj : T)
    (h : AnimationHandler) (amplify : ℚ) (ot uoc : Bool)
    (habort :
      s.get_object obj = none ∨
        ∃ o, s.get_object obj = some o ∧
          o.cubes.length > h.movement_list.length) :
    transitionToObjectBase sq co si sf1 sf2 s obj h amplify ot uoc =
      some ({ s with current_voxel := some obj }, h) := by
  unfold transitionToObjectBase
  rcases habort with hnone | ⟨o, ho, hlen⟩
  · rw [hnone]
  · rw [ho]
    simp only [if_pos hlen]

theorem C2_abort_behaviour_witness :
    emptyVoxelState.get_object 7 = none ∧
      transitionToObjectBase id id id id id emptyVoxelState 7 emptyHandler 1
          true false =
        some ({ emptyVoxelState with current_voxel := some 7 }, emptyHandler) :=
  ⟨rfl,
    C2_abort_behaviour id id id id id emptyVoxelState 7 emptyHandler 1 true
      false (Or.inl rfl)⟩

/-- Folding a push of one element per list entry grows the accumulator by
the list length. -/
theorem foldl_push_length {α β : Type} (f : List α → β → List α)
    (hf : ∀ acc b, (f acc b).length = acc.length + 1) :
    ∀ (l : List β) (acc : List α),
      (l.foldl f acc).length = acc.length + l.length := by
  intro l
  induction l with
  | nil => intro acc; simp
  | cons x xs ih =>
      intro acc
      rw [List.foldl_cons, ih, hf]
      simp
      omega

/-- C8: `fibonacci_sphere` always returns exactly `points` points; but for
a single point the code divides `0.0` by `points as f32 - 1.0 = 0.0`,
which is NaN, and the NaN propagates into all three components of the one
returned point (the spec requires a NaN-free pole point here). -/
theorem C8_fibonacci_sphere_nan (sq co si : ℚ → ℚ) (n : ℕ) (r : FQ) (r' : ℚ) :
    (fibonacci_sphere (fqOps sq co si) n r).length = n ∧
      fibonacci_sphere (fqOps sq co si) 1 (some r') = [⟨none, none, none⟩] := by
  constructor
  · unfold fibonacci_sphere
    rw [foldl_push_length]
    · simp
    · intro acc b
      simp
  · simp [fibonacci_sphere, fibPoint, fqOps, fqDiv, fqLift1, fqLift2,
      List.range_succ]

theorem ease_cubic_zero : ease_in_ease_out_cubic 0 = 0 := by
  unfold ease_in_ease_out_cubic clampQ
  norm_num

theorem ease_cubic_one : ease_in_ease_out_cubic 1 = 1 := by
  unfold ease_in_ease_out_cubic clampQ
  norm_num

theorem clampQ_of_mem (x : ℚ) (h0 : 0 ≤ x) (h1 : x ≤ 1) : clampQ x 0 1 = x := by
  unfold clampQ
  rw [if_neg (by linarith), if_neg (by linarith)]

theorem clampQ_of_ge_one (x : ℚ) (h1 : 1 ≤ x) : clampQ x 0 1 = 1 := by
  unfold clampQ
  rw [if_neg (by linarith)]
  by_cases hgt : x > 1
  · rw [if_pos hgt]
  · rw [if_neg hgt]
    linarith

theorem clampQ_of_le_zero (x : ℚ) (h0 : x ≤ 0) : clampQ x 0 1 = 0 := by
  unfold clampQ
  by_cases hlt : x < 0
  · rw [if_pos hlt]
  · rw [if_neg hlt, if_neg (by linarith)]
    linarith

/-- `animate` never touches a record's `activated` flag. -/
theorem animateOne_activated (dt : ℚ) (a : Animation) :
    (animateOne dt a).activated = a.activated := rfl

/-- One `animate` tick on a record with no step animations: the anchor is
kept, the step list stays empty, `grid_pos` is recomputed to the anchor,
and (absent persistent animations) `current_pos` too. -/
theorem animateOne_no_steps (dt : ℚ) (a : Animation) (ha : a.animations = []) :
    (animateOne dt a).start = a.start ∧
    (animateOne dt a).animations = [] ∧
    (animateOne dt a).grid_pos = a.start ∧
    (a.persistent_animation = [] → (animateOne dt a).current_pos = a.start) := by
  unfold animateOne
  rw [ha]
  refine ⟨rfl, rfl, Q3.add_zero _, fun hp => ?_⟩
  rw [hp]
  exact Q3.add_zero _

/-- One `animate` tick on a record holding a single activated forward
`easeInEaseOut` step: before the clamped time reaches 1 the anchor is
untouched and the step survives with its time advanced by `dt*speed`;
on the tick where the time saturates at 1 and the step is one-shot, the
displacement is folded into `start` and the step is removed. -/
theorem animateOne_single_forward (dt : ℚ) (a : Animation) (s : AnimationStep)
    (ha : a.animations = [s]) (hsact : s.activated = true)
    (hrev : s.reversed = false)
    (htr : s.animation_transition = .easeInEaseOut) :
    (0 < s.time + dt * s.speed → s.time + dt * s.speed < 1 →
      (animateOne dt a).start = a.start ∧
      (animateOne dt a).animations = [{ s with time := s.time + dt * s.speed }]) ∧
    (1 ≤ s.time + dt * s.speed → s.one_time_animation = true →
      (animateOne dt a).start = a.start + s.movement_vector ∧
      (animateOne dt a).animations = []) := by
  have hlerp : ∀ st e : Q3, AnimationTransition.lerp .easeInEaseOut st e 1 0 = e := by
    intro st e
    show st + ease_in_ease_out_cubic 1 • (e - st) = e
    rw [ease_cubic_one, Q3.one_smul]
    cases st; cases e
    simp [Q3.add_def, Q3.sub_def]
  constructor
  · intro hpos hlt
    have hcl : clampQ (s.time + dt * s.speed) 0 1 = s.time + dt * s.speed :=
      clampQ_of_mem _ (le_of_lt hpos) (le_of_lt hlt)
    have ht1 : s.time + dt * s.speed ≠ 1 := ne_of_lt hlt
    have ht0 : s.time + dt * s.speed ≠ 0 := ne_of_gt hpos
    unfold animateOne stepLoop
    rw [ha]
    simp [hsact, hrev, htr, hcl, ht0, ht1, List.filter]
  · intro hge hone
    have hcl : clampQ (s.time + dt * s.speed) 0 1 = 1 := clampQ_of_ge_one _ hge
    unfold animateOne stepLoop
    rw [ha]
    simp [hsact, hrev, htr, hcl, hone, hlerp, List.filter, Q3.add_sub_cancel,
      Q3.zero_add]

/-- One `animate` tick on a record holding a single activated reversed
`easeInEaseOut` step: while the clamped time stays above 0 the anchor is
untouched and the step survives with its time advanced down by
`dt*speed`; once the time reaches 0 the step is removed leaving no
residual displacement. -/
theorem animateOne_single_reversed (dt : ℚ) (a : Animation)
    (s : AnimationStep) (ha : a.animations = [s]) (hsact : s.activated = true)
    (hrev : s.reversed = true)
    (htr : s.animation_transition = .easeInEaseOut) :
    (0 < s.time - dt * s.speed → s.time - dt * s.speed < 1 →
      (animateOne dt a).start = a.start ∧
      (animateOne dt a).animations = [{ s with time := s.time - dt * s.speed }]) ∧
    (s.time - dt * s.speed ≤ 0 →
      (animateOne dt a).start = a.start ∧
      (animateOne dt a).animations = [] ∧
      (animateOne dt a).grid_pos = a.start ∧
      (a.persistent_animation = [] → (animateOne dt a).current_pos = a.start)) := by
  have hlerp0 : ∀ st e : Q3, AnimationTransition.lerp .easeInEaseOut st e 0 0 = st := by
    intro st e
    show st + ease_in_ease_out_cubic 0 • (e - st) = st
    rw [ease_cubic_zero, Q3.zero_smul, Q3.add_zero]
  constructor
  · intro hpos hlt
    have hcl : clampQ (s.time - dt * s.speed) 0 1 = s.time - dt * s.speed :=
      clampQ_of_mem _ (le_of_lt hpos) (le_of_lt hlt)
    have ht1 : s.time - dt * s.speed ≠ 1 := ne_of_lt hlt
    have ht0 : s.time - dt * s.speed ≠ 0 := ne_of_gt hpos
    unfold animateOne stepLoop
    rw [ha]
    simp [hsact, hrev, htr, hcl, ht0, ht1, List.filter]
  · intro hle
    have hcl : clampQ (s.time - dt * s.speed) 0 1 = 0 := clampQ_of_le_zero _ hle
    unfold animateOne stepLoop
    rw [ha]
    refine ⟨?_, ?_, ?_, ?_⟩
    · simp [hsact, hrev, htr, hcl, hlerp0, Q3.sub_self, Q3.sub_zero]
    · simp [hsact, hrev, htr, hcl, List.filter]
    · simp [hsact, hrev, htr, hcl, hlerp0, Q3.sub_self, Q3.sub_zero,
        Q3.add_zero, Q3.zero_add]
    · intro hp
      simp [hsact, hrev, htr, hcl, hlerp0, hp, Q3.sub_self, Q3.sub_zero,
        Q3.add_zero, Q3.zero_add]

/-- `animate` on an enabled singleton registry applies `animateOne` to its
one activated record. -/
theorem animate_singleton (dt : ℚ) (a : Animation) (ha : a.activated = true) :
    AnimationHandler.animate ⟨[a], false⟩ dt = ⟨[animateOne dt a], false⟩ := by
  unfold AnimationHandler.animate
  simp [ha]

/-- Trajectory of a single-record registry holding one fresh one-shot
forward step, as an explicit record at every tick count. -/
theorem oneshot_iterate (dt : ℚ) (a : Animation) (s : AnimationStep)
    (hact : a.activated = true) (ha : a.animations = [s])
    (hsact : s.activated = true) (hrev : s.reversed = false)
    (hone : s.one_time_animation = true)
    (htr : s.animation_transition = .easeInEaseOut)
    (ht0 : s.time = 0) (hdt : 0 < dt) (hsp : 0 < s.speed) :
    ∀ k : ℕ, ∃ a' : Animation,
      (fun h => AnimationHandler.animate h dt)^[k] ⟨[a], false⟩ = ⟨[a'], false⟩ ∧
      a'.activated = true ∧
      ((k : ℚ) * (dt * s.speed) < 1 →
        a'.start = a.start ∧
        a'.animations = [{ s with time := (k : ℚ) * (dt * s.speed) }]) ∧
      (1 ≤ (k : ℚ) * (dt * s.speed) →
        a'.start = a.start + s.movement_vector ∧ a'.animations = []) := by
  have hd : 0 < dt * s.speed := mul_pos hdt hsp
  intro k
  induction k with
  | zero =>
      refine ⟨a, by simp, hact, fun _ => ⟨rfl, ?_⟩, fun h1 => absurd h1 ?_⟩
      · rw [ha]
        cases s
        simp at ht0
        simp [ht0]
      · push_cast
        norm_num
  | succ k ih =>
      obtain ⟨a', heq, hact', hc1, hc2⟩ := ih
      have ecast : (k : ℚ) * (dt * s.speed) + dt * s.speed =
          ((k + 1 : ℕ) : ℚ) * (dt * s.speed) := by
        push_cast
        ring
      have hknn : 0 ≤ (k : ℚ) * (dt * s.speed) := by positivity
      rw [Function.iterate_succ_apply', heq]
      by_cases hk : (k : ℚ) * (dt * s.speed) < 1
      · obtain ⟨hs1, hs2⟩ := hc1 hk
        have hfwd := animateOne_single_forward dt a'
          { s with time := (k : ℚ) * (dt * s.speed) } hs2 hsact hrev htr
        dsimp only at hfwd
        refine ⟨animateOne dt a', animate_singleton dt a' hact',
          by rw [animateOne_activated]; exact hact', ?_, ?_⟩
        · intro hk1
          rw [← ecast] at hk1
          obtain ⟨r1, r2⟩ := hfwd.1 (by linarith) hk1
          refine ⟨r1.trans hs1, ?_⟩
          rw [r2]
          show [{ s with time := (k : ℚ) * (dt * s.speed) + dt * s.speed }] = _
          rw [ecast]
        · intro hk1
          rw [← ecast] at hk1
          obtain ⟨r1, r2⟩ := hfwd.2 hk1 hone
          exact ⟨by rw [r1, hs1], r2⟩
      · push_neg at hk
        obtain ⟨hs1, hs2⟩ := hc2 hk
        have hno := animateOne_no_steps dt a' hs2
        refine ⟨animateOne dt a', animate_singleton dt a' hact',
          by rw [animateOne_activated]; exact hact', ?_, ?_⟩
        · intro hk1
          exfalso
          rw [← ecast] at hk1
          linarith
        · intro _
          exact ⟨by rw [hno.1, hs1], hno.2.1⟩

/-- C1: a record holding a single fresh one-shot forward step, advanced
repeatedly with fixed positive `dt`: on every tick strictly before the
step's time reaches 1.0 the anchor `start` is unchanged and the step is
still queued with its time advanced; from the tick where the time reaches
1.0 (which exists) onward, `start` has been folded exactly once (by the
step's displacement) and the step is absent from the step list — in
particular on the tick following the fold. -/
theorem C1_oneshot_anchor_folds_once (dt : ℚ) (a : Animation)
    (s : AnimationStep) (hact : a.activated = true) (ha : a.animations = [s])
    (hsact : s.activated = true) (hrev : s.reversed = false)
    (hone : s.one_time_animation = true)
    (htr : s.animation_transition = .easeInEaseOut)
    (ht0 : s.time = 0) (hdt : 0 < dt) (hsp : 0 < s.speed) :
    (∃ N : ℕ, 1 ≤ (N : ℚ) * (dt * s.speed)) ∧
    ∀ k : ℕ,
      ((k : ℚ) * (dt * s.speed) < 1 →
        ((fun h => AnimationHandler.animate h dt)^[k]
            ⟨[a], false⟩).movement_list.map Animation.start = [a.start] ∧
        ((fun h => AnimationHandler.animate h dt)^[k]
            ⟨[a], false⟩).movement_list.map Animation.animations =
          [[{ s with time := (k : ℚ) * (dt * s.speed) }]]) ∧
      (1 ≤ (k : ℚ) * (dt * s.speed) →
        ((fun h => AnimationHandler.animate h dt)^[k]
            ⟨[a], false⟩).movement_list.map Animation.start =
          [a.start + s.movement_vector] ∧
        ((fun h => AnimationHandler.animate h dt)^[k]
            ⟨[a], false⟩).movement_list.map Animation.animations = [[]]) := by
  have hd : 0 < dt * s.speed := mul_pos hdt hsp
  constructor
  · obtain ⟨N, hN⟩ := exists_nat_gt (1 / (dt * s.speed))
    exact ⟨N, (div_le_iff hd).mp (le_of_lt hN)⟩
  · intro k
    obtain ⟨a', heq, _, hc1, hc2⟩ :=
      oneshot_iterate dt a s hact ha hsact hrev hone htr ht0 hdt hsp k
    rw [heq]
    constructor
    · intro hk
      obtain ⟨h1, h2⟩ := hc1 hk
      simp [h1, h2]
    · intro hk
      obtain ⟨h1, h2⟩ := hc2 hk
      simp [h1, h2]

theorem C1_oneshot_anchor_folds_once_witness :
    (0 : ℚ) < 1 ∧ (0 : ℚ) < c1Step.speed ∧
    1 ≤ (1 : ℚ) * (1 * c1Step.speed) ∧
    ((fun h => AnimationHandler.animate h 1)^[1]
        ⟨[c1Record], false⟩).movement_list.map Animation.start =
      [c1Record.start + c1Step.movement_vector] ∧
    ((fun h => AnimationHandler.animate h 1)^[1]
        ⟨[c1Record], false⟩).movement_list.map Animation.animations = [[]] := by
  have hsp : (0 : ℚ) < c1Step.speed := by
    norm_num [c1Step, AnimationStep.new]
  have hcond : 1 ≤ ((1 : ℕ) : ℚ) * (1 * c1Step.speed) := by
    norm_num [c1Step, AnimationStep.new]
  have h := (C1_oneshot_anchor_folds_once 1 c1Record c1Step rfl rfl rfl rfl rfl
    rfl rfl one_pos hsp).2 1
  have h2 := h.2 hcond
  refine ⟨one_pos, hsp, by exact_mod_cast hcond, ?_, ?_⟩
  · exact_mod_cast h2.1
  · exact_mod_cast h2.2

/-- Trajectory of a single-record registry holding one reversed step, as
an explicit record at every tick count. -/
theorem reversed_iterate (dt : ℚ) (a : Animation) (s : AnimationStep)
    (hact : a.activated = true) (ha : a.animations = [s])
    (hsact : s.activated = true) (hrev : s.reversed = true)
    (htr : s.animation_transition = .easeInEaseOut)
    (hp : a.persistent_animation = []) (ht0 : 0 < s.time) (ht1 : s.time ≤ 1)
    (hdt : 0 < dt) (hsp : 0 < s.speed) :
    ∀ k : ℕ, ∃ a' : Animation,
      (fun h => AnimationHandler.animate h dt)^[k] ⟨[a], false⟩ = ⟨[a'], false⟩ ∧
      a'.activated = true ∧
      a'.persistent_animation = [] ∧
      a'.start = a.start ∧
      (0 < s.time - (k : ℚ) * (dt * s.speed) →
        a'.animations = [{ s with time := s.time - (k : ℚ) * (dt * s.speed) }]) ∧
      (s.time - (k : ℚ) * (dt * s.speed) ≤ 0 → 1 ≤ k →
        a'.animations = [] ∧ a'.grid_pos = a.start ∧ a'.current_pos = a.start) := by
  have hd : 0 < dt * s.speed := mul_pos hdt hsp
  intro k
  induction k with
  | zero =>
      refine ⟨a, by simp, hact, hp, rfl, fun _ => ?_, fun _ h1 => absurd h1 (by norm_num)⟩
      rw [ha]
      cases s
      push_cast
      norm_num
  | succ k ih =>
      obtain ⟨a', heq, hact', hp', hstart', hc1, hc2⟩ := ih
      have ecast : s.time - (k : ℚ) * (dt * s.speed) - dt * s.speed =
          s.time - ((k + 1 : ℕ) : ℚ) * (dt * s.speed) := by
        push_cast
        ring
      have hknn : 0 ≤ (k : ℚ) * (dt * s.speed) := by positivity
      have hpersist : (animateOne dt a').persistent_animation = [] := by
        show a'.persistent_animation.map _ = []
        rw [hp']
        rfl
      rw [Function.iterate_succ_apply', heq]
      by_cases hk : 0 < s.time - (k : ℚ) * (dt * s.speed)
      · have hs2 := hc1 hk
        have hrv := animateOne_single_reversed dt a'
          { s with time := s.time - (k : ℚ) * (dt * s.speed) } hs2 hsact hrev htr
        dsimp only at hrv
        by_cases hnext : 0 < s.time - (k : ℚ) * (dt * s.speed) - dt * s.speed
        · obtain ⟨r1, r2⟩ := hrv.1 hnext (by linarith)
          refine ⟨animateOne dt a', animate_singleton dt a' hact',
            by rw [animateOne_activated]; exact hact', hpersist,
            r1.trans hstart', fun _ => ?_, fun hc _ => ?_⟩
          · rw [r2]
            show [{ s with time := s.time - (k : ℚ) * (dt * s.speed) - dt * s.speed }] = _
            rw [ecast]
          · exfalso
            rw [← ecast] at hc
            linarith
        · push_neg at hnext
          obtain ⟨r1, r2, r3, r4⟩ := hrv.2 hnext
          refine ⟨animateOne dt a', animate_singleton dt a' hact',
            by rw [animateOne_activated]; exact hact', hpersist,
            r1.trans hstart', fun hc => ?_, fun _ _ => ?_⟩
          · exfalso
            rw [← ecast] at hc
            linarith
          · exact ⟨r2, r3.trans hstart', (r4 hp').trans hstart'⟩
      · push_neg at hk
        have hs2 := hc2 hk (by
          by_contra hk0
          push_neg at hk0
          interval_cases k
          simp at hk
          cases s
          dsimp only at *
          linarith)
        have hno := animateOne_no_steps dt a' hs2.1
        refine ⟨animateOne dt a', animate_singleton dt a' hact',
          by rw [animateOne_activated]; exact hact', hpersist,
          hno.1.trans hstart', fun hc => ?_, fun _ _ => ?_⟩
        · exfalso
          rw [← ecast] at hc
          linarith
        · exact ⟨hno.2.1, hno.2.2.1.trans hstart', (hno.2.2.2 hp').trans hstart'⟩

/-- C7: a record holding a single reversed step (mid-flight time in
(0,1]), advanced repeatedly with fixed positive `dt`: `start` is never
altered on any tick; from the tick where the step's time reaches 0.0
(which exists) onward, the step is absent from the step list and both
`grid_pos` and `current_pos` equal the unchanged anchor, so no residual
displacement from the step remains. -/
theorem C7_reversed_removed_without_fold (dt : ℚ) (a : Animation)
    (s : AnimationStep) (hact : a.activated = true) (ha : a.animations = [s])
    (hsact : s.activated = true) (hrev : s.reversed = true)
    (htr : s.animation_transition = .easeInEaseOut)
    (hp : a.persistent_animation = []) (hgrid : a.grid_pos = a.start)
    (ht0 : 0 < s.time) (ht1 : s.time ≤ 1) (hdt : 0 < dt) (hsp : 0 < s.speed) :
    (∃ N : ℕ, s.time - (N : ℚ) * (dt * s.speed) ≤ 0) ∧
    ∀ k : ℕ,
      ((fun h => AnimationHandler.animate h dt)^[k]
          ⟨[a], false⟩).movement_list.map Animation.start = [a.start] ∧
      (s.time - (k : ℚ) * (dt * s.speed) ≤ 0 → 1 ≤ k →
        ((fun h => AnimationHandler.animate h dt)^[k]
            ⟨[a], false⟩).movement_list.map Animation.animations = [[]] ∧
        ((fun h => AnimationHandler.animate h dt)^[k]
            ⟨[a], false⟩).movement_list.map Animation.grid_pos = [a.grid_pos] ∧
        ((fun h => AnimationHandler.animate h dt)^[k]
            ⟨[a], false⟩).movement_list.map Animation.current_pos = [a.start]) := by
  have hd : 0 < dt * s.speed := mul_pos hdt hsp
  constructor
  · obtain ⟨N, hN⟩ := exists_nat_gt (s.time / (dt * s.speed))
    refine ⟨N, ?_⟩
    have := (div_lt_iff hd).mp hN
    linarith
  · intro k
    obtain ⟨a', heq, _, _, hstart', _, hc2⟩ :=
      reversed_iterate dt a s hact ha hsact hrev htr hp ht0 ht1 hdt hsp k
    rw [heq]
    constructor
    · simp [hstart']
    · intro hcond hk1
      obtain ⟨h1, h2, h3⟩ := hc2 hcond hk1
      rw [hgrid]
      simp [h1, h2, h3]

theorem C7_reversed_removed_without_fold_witness :
    (0 : ℚ) < c7Step.time ∧ c7Step.time - (1 : ℚ) * (1 * c7Step.speed) ≤ 0 ∧
    ((fun h => AnimationHandler.animate h 1)^[1]
        ⟨[c7Record], false⟩).movement_list.map Animation.start =
      [c7Record.start] ∧
    ((fun h => AnimationHandler.animate h 1)^[1]
        ⟨[c7Record], false⟩).movement_list.map Animation.animations = [[]] ∧
    ((fun h => AnimationHandler.animate h 1)^[1]
        ⟨[c7Record], false⟩).movement_list.map Animation.grid_pos =
      [c7Record.grid_pos] ∧
    ((fun h => AnimationHandler.animate h 1)^[1]
        ⟨[c7Record], false⟩).movement_list.map Animation.current_pos =
      [c7Record.start] := by
  have hbase := C7_reversed_removed_without_fold 1 c7Record c7Step rfl rfl rfl
    rfl rfl rfl rfl (by norm_num [c7Step]) (by norm_num [c7Step]) one_pos
    (by norm_num [c7Step])
  have hcond : c7Step.time - ((1 : ℕ) : ℚ) * (1 * c7Step.speed) ≤ 0 := by
    norm_num [c7Step]
  have h := (hbase.2 1)
  have h2 := h.2 hcond le_rfl
  exact ⟨by norm_num [c7Step], by exact_mod_cast hcond, by exact_mod_cast h.1,
    by exact_mod_cast h2.1, by exact_mod_cast h2.2.1, by exact_mod_cast h2.2.2⟩

theorem modifyIdx_get {α : Type} (f : α → α) :
    ∀ (i : ℕ) (l : List α), (modifyIdx i f l).get? i = (l.get? i).map f := by
  intro i
  induction i with
  | zero =>
      intro l
      cases l <;> rfl
  | succ i ih =>
      intro l
      cases l with
      | nil => rfl
      | cons x xs =>
          show (modifyIdx (i + 1) f (x :: xs)).get? (i + 1) = _
          simp only [modifyIdx, List.get?_cons_succ]
          exact ih xs

theorem modifyIdx_map {α β : Type} (f : α → α) (g : α → β)
    (hfg : ∀ x, g (f x) = g x) :
    ∀ (i : ℕ) (l : List α), (modifyIdx i f l).map g = l.map g := by
  intro i
  induction i with
  | zero =>
      intro l
      cases l with
      | nil => rfl
      | cons x xs => simp [modifyIdx, hfg]
  | succ i ih =>
      intro l
      cases l with
      | nil => rfl
      | cons x xs => simp [modifyIdx, ih]

theorem mem_modifyIdx {α : Type} (f : α → α) :
    ∀ (i : ℕ) (l : List α) (a : α), a ∈ modifyIdx i f l →
      a ∈ l ∨ ∃ b ∈ l, a = f b := by
  intro i
  induction i with
  | zero =>
      intro l a ha
      cases l with
      | nil => simp [modifyIdx] at ha
      | cons x xs =>
          simp only [modifyIdx, List.mem_cons] at ha
          rcases ha with h | h
          · exact Or.inr ⟨x, List.mem_cons_self x xs, h⟩
          · exact Or.inl (List.mem_cons_of_mem x h)
  | succ i ih =>
      intro l a ha
      cases l with
      | nil => simp [modifyIdx] at ha
      | cons x xs =>
          simp only [modifyIdx, List.mem_cons] at ha
          rcases ha with h | h
          · exact Or.inl (h ▸ List.mem_cons_self x xs)
          · rcases ih xs a h with h' | ⟨b, hb, hab⟩
            · exact Or.inl (List.mem_cons_of_mem x h')
            · exact Or.inr ⟨b, List.mem_cons_of_mem x hb, hab⟩

/-- The step written back by one iteration of the step loop is exactly
`stepUpdate` of the incoming step: the loop's effect on the step itself
does not depend on the accumulated anchor. -/
theorem stepLoop_snd (delta : ℚ) (st : (Q3 × Q3 × Q3) × List AnimationStep)
    (s : AnimationStep) :
    (stepLoop delta st s).2 = st.2 ++ [stepUpdate delta s] := by
  unfold stepLoop stepUpdate
  by_cases hs : s.activated
  · simp [hs]
  · simp [hs]

theorem stepfold_snd (delta : ℚ) :
    ∀ (l : List AnimationStep) (st : (Q3 × Q3 × Q3) × List AnimationStep),
      (l.foldl (stepLoop delta) st).2 = st.2 ++ l.map (stepUpdate delta) := by
  intro l
  induction l with
  | nil => intro st; simp
  | cons s ss ih =>
      intro st
      rw [List.foldl_cons, ih, stepLoop_snd]
      simp

/-- The step list produced by one `animate` tick on a record: every step
is updated by `stepUpdate` and then the terminal ones are filtered out. -/
theorem animateOne_animations (dt : ℚ) (a : Animation) :
    (animateOne dt a).animations =
      (a.animations.map (stepUpdate dt)).filter fun step =>
        !((step.reversed && decide (step.time = 0)) ||
          (step.one_time_animation && decide (step.time = 1))) := by
  dsimp only [animateOne]
  rw [stepfold_snd]
  rfl

/-- `stepUpdate` touches only `time` and `animating`. -/
theorem stepUpdate_fields (delta : ℚ) (s : AnimationStep) :
    (stepUpdate delta s).reversed = s.reversed ∧
    (stepUpdate delta s).one_time_animation = s.one_time_animation ∧
    (stepUpdate delta s).movement_vector = s.movement_vector ∧
    (stepUpdate delta s).activated = s.activated ∧
    (stepUpdate delta s).speed = s.speed ∧
    (stepUpdate delta s).animation_transition = s.animation_transition := by
  unfold stepUpdate
  by_cases hs : s.activated <;> simp [hs]

/-- C10: a forward non-one-shot step is never removed by `animate`:
(i) `animate` sends each activated record through `animateOne`;
(ii) the updated version of every forward non-one-shot step survives the
terminal-removal filter of every tick; (iii) once such a step's time has
saturated at 1.0 it stays at 1.0 on the next tick (for nonnegative
`dt*speed`); (iv) on a record holding only such a saturated step, the
tick still adds the full displacement into `current_pos` and keeps the
step; (v) `set_animation` on an enabled registry appends the queued step
to the indexed record's step list — which is how each `explode_object`
call permanently grows the step lists of the records it touches. -/
theorem C10_forward_steps_never_removed :
    (∀ (h : AnimationHandler) (i : ℕ) (a : Animation) (dt : ℚ),
      h.disabled = false → h.movement_list.get? i = some a →
      a.activated = true →
      (h.animate dt).movement_list.get? i = some (animateOne dt a)) ∧
    (∀ (dt : ℚ) (a : Animation) (st : AnimationStep),
      st ∈ a.animations → st.reversed = false →
      st.one_time_animation = false →
      stepUpdate dt st ∈ (animateOne dt a).animations) ∧
    (∀ (dt : ℚ) (st : AnimationStep), st.reversed = false → st.time = 1 →
      0 ≤ dt * st.speed → st.activated = true →
      stepUpdate dt st = { st with animating := false }) ∧
    (∀ (dt : ℚ) (a : Animation) (s : AnimationStep),
      a.animations = [s] → a.persistent_animation = [] →
      s.activated = true → s.reversed = false →
      s.one_time_animation = false →
      s.animation_transition = .easeInEaseOut → s.time = 1 →
      0 ≤ dt * s.speed →
      (animateOne dt a).current_pos = a.start + s.movement_vector ∧
      (animateOne dt a).animations = [{ s with animating := false }]) ∧
    (∀ (h : AnimationHandler) (i : ℕ) (a0 : Animation) (st : AnimationStep),
      h.disabled = false → h.movement_list.get? i = some a0 →
      (h.set_animation i (.step st)).movement_list.get? i =
        some { a0 with animations := a0.animations ++ [st] }) := by
  refine ⟨?_, ?_, ?_, ?_, ?_⟩
  · intro h i a dt hdis hget hact
    unfold AnimationHandler.animate
    rw [hdis]
    simp only [Bool.false_eq_true, if_false, List.get?_map, hget,
      Option.map_some']
    rw [hact]
    simp
  · intro dt a st hmem hrev hone
    rw [animateOne_animations]
    rw [List.mem_filter]
    obtain ⟨f1, f2, _⟩ := stepUpdate_fields dt st
    constructor
    · exact List.mem_map_of_mem _ hmem
    · rw [f1, f2, hrev, hone]
      simp
  · intro dt st hrev htime hnn hact
    unfold stepUpdate
    rw [hact, hrev, htime]
    have hcl : clampQ (1 + dt * st.speed) 0 1 = 1 :=
      clampQ_of_ge_one _ (by linarith)
    simp [hcl]
  · intro dt a s ha hp hsact hrev hone htr htime hnn
    constructor
    · have hlerp : ∀ st e : Q3,
          AnimationTransition.lerp .easeInEaseOut st e 1 0 = e := by
        intro st e
        show st + ease_in_ease_out_cubic 1 • (e - st) = e
        rw [ease_cubic_one, Q3.one_smul]
        cases st; cases e
        simp [Q3.add_def, Q3.sub_def]
      have hcl : clampQ (s.time + dt * s.speed) 0 1 = 1 :=
        clampQ_of_ge_one _ (by rw [htime]; linarith)
      unfold animateOne stepLoop
      rw [ha, hp]
      simp [hsact, hrev, htr, hcl, hone, hlerp, Q3.add_sub_cancel,
        Q3.zero_add]
    · rw [animateOne_animations, ha]
      have hcl : clampQ (s.time + dt * s.speed) 0 1 = 1 :=
        clampQ_of_ge_one _ (by rw [htime]; linarith)
      simp only [List.map_cons, List.map_nil]
      unfold stepUpdate
      rw [hsact, hrev]
      simp only [Bool.not_true, Bool.false_eq_true, if_false, if_true, hcl]
      simp [List.filter, hrev, hone]
      exact htime.symm
  · intro h i a0 st hdis hget
    unfold AnimationHandler.set_animation
    rw [hdis]
    simp only [Bool.false_eq_true, if_false]
    rw [modifyIdx_get, hget]
    rfl

theorem C10_forward_steps_never_removed_witness :
    stepUpdate 1 sampleStepFwd ∈ (animateOne 1 sampleRecord).animations ∧
    (sampleEnabledHandler.set_animation 0 (.step sampleStepFwd)).movement_list.get? 0 =
      some { sampleRecord with
              animations := sampleRecord.animations ++ [sampleStepFwd] } :=
  ⟨C10_forward_steps_never_removed.2.1 1 sampleRecord sampleStepFwd
      (by simp [sampleRecord]) rfl rfl,
    C10_forward_steps_never_removed.2.2.2.2 sampleEnabledHandler 0 sampleRecord
      sampleStepFwd rfl rfl⟩

theorem Pres_refl (h : AnimationHandler) : Pres h h := ⟨rfl, id⟩

theorem Pres_trans {h0 h1 h2 : AnimationHandler} (p1 : Pres h0 h1)
    (p2 : Pres h1 h2) : Pres h0 h2 :=
  ⟨p2.1.trans p1.1, fun hn => p2.2 (p1.2 hn)⟩

theorem Pres_set_animation_step (h : AnimationHandler) (i : ℕ)
    (st : AnimationStep) (hone : st.one_time_animation = false) :
    Pres h (h.set_animation i (.step st)) := by
  unfold AnimationHandler.set_animation
  cases hdis : h.disabled
  · simp only [Bool.false_eq_true, if_false]
    constructor
    · unfold startsOf
      dsimp only
      apply modifyIdx_map
      intro x
      rfl
    · intro hno a' ha' st' hst'
      dsimp only at ha'
      rcases mem_modifyIdx _ i _ a' ha' with h' | ⟨b, hb, rfl⟩
      · exact hno a' h' st' hst'
      · dsimp only at hst'
        rcases List.mem_append.mp hst' with h' | h'
        · exact hno b hb st' h'
        · rw [List.mem_singleton.mp h']
          exact hone
  · simp only [if_true]
    exact Pres_refl h

theorem Pres_set_animation_state (h : AnimationHandler) (i : ℕ) (b : Bool) :
    Pres h (h.set_animation_state i b) := by
  unfold AnimationHandler.set_animation_state
  cases hdis : h.disabled
  · simp only [Bool.false_eq_true, if_false]
    constructor
    · unfold startsOf
      dsimp only
      apply modifyIdx_map
      intro x
      rfl
    · intro hno a' ha' st' hst'
      dsimp only at ha'
      rcases mem_modifyIdx _ i _ a' ha' with h' | ⟨c, hc, rfl⟩
      · exact hno a' h' st' hst'
      · dsimp only at hst'
        rcases List.mem_map.mp hst' with ⟨s0, hs0, rfl⟩
        exact hno c hc s0 hs0
  · simp only [if_true]
    exact Pres_refl h

theorem Pres_set_manual_animation_color (h : AnimationHandler) (i : ℕ)
    (c : Q3) : Pres h (h.set_manual_animation_color i c) := by
  unfold AnimationHandler.set_manual_animation_color
  constructor
  · unfold startsOf
    dsimp only
    apply modifyIdx_map
    intro x
    rfl
  · intro hno a' ha' st' hst'
    dsimp only at ha'
    rcases mem_modifyIdx _ i _ a' ha' with h' | ⟨b, hb, rfl⟩
    · exact hno a' h' st' hst'
    · exact hno b hb st' hst'

theorem Pres_set_animated_color (h : AnimationHandler) (i : ℕ) :
    Pres h (h.set_animated_color i) := by
  unfold AnimationHandler.set_animated_color
  constructor
  · unfold startsOf
    dsimp only
    apply modifyIdx_map
    intro x
    rfl
  · intro hno a' ha' st' hst'
    dsimp only at ha'
    rcases mem_modifyIdx _ i _ a' ha' with h' | ⟨b, hb, rfl⟩
    · exact hno a' h' st' hst'
    · exact hno b hb st' hst'

/-- `foldlM` over `Option` preserves any reflexive transitive relation
that each successful step preserves. -/
theorem foldlM_rel {σ α : Type} (f : σ → α → Option σ) (R : σ → σ → Prop)
    (hrefl : ∀ s, R s s)
    (htrans : ∀ {s1 s2 s3}, R s1 s2 → R s2 s3 → R s1 s3)
    (hstep : ∀ s a s', f s a = some s' → R s s') :
    ∀ (l : List α) (s s' : σ), l.foldlM f s = some s' → R s s' := by
  intro l
  induction l with
  | nil =>
      intro s s' h
      simp only [List.foldlM_nil] at h
      cases h
      exact hrefl s
  | cons a l ih =>
      intro s s' h
      rw [List.foldlM_cons] at h
      cases hfa : f s a with
      | none =>
          rw [hfa, Option.bind_eq_bind, Option.none_bind] at h
          exact Option.noConfusion h
      | some s1 =>
          rw [hfa, Option.bind_eq_bind, Option.some_bind] at h
          exact htrans (hstep s a s1 hfa) (ih s1 s' h)

/-- One successful iteration of the assignment loop (with
`is_onetime = false`) preserves anchors and one-shot freedom of the
registry. -/
theorem assignStep_pres (amplify : ℚ) (uoc : Bool) (obj : Object)
    (st st' : List ℕ × List ℕ × AnimationHandler) (i : ℕ)
    (h : assignStep amplify false uoc obj st i = some st') :
    Pres st.2.2 st'.2.2 := by
  dsimp only [assignStep] at h
  cases hc : obj.cubes.get? i with
  | none =>
      rw [hc, Option.bind_eq_bind, Option.none_bind] at h
      exact Option.noConfusion h
  | some cube =>
  rw [hc, Option.bind_eq_bind, Option.some_bind] at h
  cases hpop : popLast? st.1 with
  | none =>
      rw [hpop, Option.bind_eq_bind, Option.none_bind] at h
      exact Option.noConfusion h
  | some popped =>
  rw [hpop, Option.bind_eq_bind, Option.some_bind] at h
  cases hget : st.2.2.movement_list.get? popped.1 with
  | none =>
      rw [hget, Option.bind_eq_bind, Option.none_bind] at h
      exact Option.noConfusion h
  | some animation =>
  rw [hget, Option.bind_eq_bind, Option.some_bind] at h
  cases huoc : uoc
  · rw [huoc] at h
    simp only [Bool.false_eq_true, if_false, Option.bind_eq_bind,
      Option.some_bind] at h
    obtain rfl := (Option.some.inj h).symm
    exact Pres_trans (Pres_set_animation_step _ _ _ rfl)
      (Pres_set_animation_state _ _ _)
  · rw [huoc] at h
    simp only [if_true] at h
    cases hcol : obj.color.get? i with
    | none =>
        rw [hcol] at h
        simp only [Option.map_none', Option.bind_eq_bind, Option.none_bind] at h
        exact Option.noConfusion h
    | some color =>
        rw [hcol] at h
        simp only [Option.map_some', Option.bind_eq_bind, Option.some_bind] at h
        obtain rfl := (Option.some.inj h).symm
        exact Pres_trans (Pres_set_manual_animation_color _ _ _)
          (Pres_trans (Pres_set_animation_step _ _ _ rfl)
            (Pres_set_animation_state _ _ _))

/-- One successful iteration of the released-instances loop (with
`is_onetime = false`) preserves anchors and one-shot freedom of the
registry. -/
theorem releaseStep_pres (sq : ℚ → ℚ) (st st' : List Q3 × AnimationHandler)
    (i : ℕ) (h : releaseStep sq false st i = some st') :
    Pres st.2 st'.2 := by
  dsimp only [releaseStep] at h
  cases hget : st.2.movement_list.get? i with
  | none =>
      rw [hget, Option.bind_eq_bind, Option.none_bind] at h
      exact Option.noConfusion h
  | some animation =>
  rw [hget, Option.bind_eq_bind, Option.some_bind] at h
  cases hpop : popLast? st.1 with
  | none =>
      rw [hpop, Option.bind_eq_bind, Option.none_bind] at h
      exact Option.noConfusion h
  | some popped =>
  rw [hpop, Option.bind_eq_bind, Option.some_bind] at h
  obtain rfl := (Option.some.inj h).symm
  exact Pres_trans (Pres_set_animated_color _ _)
    (Pres_trans (Pres_set_animation_step _ _ _ rfl)
      (Pres_set_animation_state _ _ _))

/-- A successful `transition_to_object_base` with `is_onetime = false`
(the explosion path) leaves every record's anchor unchanged and queues
only non-one-shot steps. -/
theorem transitionBase_pres {T : Type} [DecidableEq T] (sq co si : ℚ → ℚ)
    (sf1 sf2 : List ℕ → List ℕ) (s : VoxelHandler T) (obj : T)
    (h : AnimationHandler) (amplify : ℚ) (uoc : Bool)
    (s' : VoxelHandler T) (h' : AnimationHandler)
    (hres : transitionToObjectBase sq co si sf1 sf2 s obj h amplify false uoc =
      some (s', h')) :
    Pres h h' := by
  dsimp only [transitionToObjectBase] at hres
  cases hobj : s.get_object obj with
  | none =>
      rw [hobj] at hres
      simp only [Option.some.injEq, Prod.mk.injEq] at hres
      exact hres.2 ▸ Pres_refl h
  | some o =>
  rw [hobj] at hres
  dsimp only at hres
  by_cases hlen : o.cubes.length > h.movement_list.length
  · rw [if_pos hlen] at hres
    simp only [Option.some.injEq, Prod.mk.injEq] at hres
    exact hres.2 ▸ Pres_refl h
  · rw [if_neg hlen] at hres
    have bsome : ∀ {α β : Type} (x : Option α) (f : α → Option β) (b : β),
        x >>= f = some b → ∃ a, x = some a ∧ f a = some b := by
      intro α β x f b hxb
      rw [Option.bind_eq_bind] at hxb
      exact Option.bind_eq_some.mp hxb
    by_cases hdef : o.cubes.length >
        (if s.current_cubes.isEmpty = true then
          List.range h.movement_list.length else s.current_cubes).length
    · rw [if_pos hdef] at hres
      obtain ⟨cc1, hcc1, hres⟩ := bsome _ _ _ hres
      obtain ⟨assigned, hassigned, hres⟩ := bsome _ _ _ hres
      obtain ⟨released, hreleased, hres⟩ := bsome _ _ _ hres
      simp only [pure, Option.some.injEq, Prod.mk.injEq] at hres
      have p1 : Pres h assigned.2.2 :=
        foldlM_rel _ (fun a b => Pres a.2.2 b.2.2) (fun _ => Pres_refl _)
          (by intro a b c hab hbc; exact Pres_trans hab hbc)
          (fun a i b hb => assignStep_pres _ _ _ _ _ _ hb) _ _ _ hassigned
      have p2 : Pres assigned.2.2 released.2 :=
        foldlM_rel _ (fun a b => Pres a.2 b.2) (fun _ => Pres_refl _)
          (by intro a b c hab hbc; exact Pres_trans hab hbc)
          (fun a i b hb => releaseStep_pres _ _ _ _ hb) _ _ _ hreleased
      exact hres.2 ▸ Pres_trans p1 p2
    · rw [if_neg hdef] at hres
      obtain ⟨cc1, hcc1, hres⟩ := bsome _ _ _ hres
      obtain ⟨assigned, hassigned, hres⟩ := bsome _ _ _ hres
      obtain ⟨released, hreleased, hres⟩ := bsome _ _ _ hres
      simp only [pure, Option.some.injEq, Prod.mk.injEq] at hres
      have p1 : Pres h assigned.2.2 :=
        foldlM_rel _ (fun a b => Pres a.2.2 b.2.2) (fun _ => Pres_refl _)
          (by intro a b c hab hbc; exact Pres_trans hab hbc)
          (fun a i b hb => assignStep_pres _ _ _ _ _ _ hb) _ _ _ hassigned
      have p2 : Pres assigned.2.2 released.2 :=
        foldlM_rel _ (fun a b => Pres a.2 b.2) (fun _ => Pres_refl _)
          (by intro a b c hab hbc; exact Pres_trans hab hbc)
          (fun a i b hb => releaseStep_pres _ _ _ _ hb) _ _ _ hreleased
      exact hres.2 ▸ Pres_trans p1 p2

/-- The step loop never folds the anchor when no step is one-shot. -/
theorem stepfold_fst_nofold (delta : ℚ) :
    ∀ (l : List AnimationStep) (st : (Q3 × Q3 × Q3) × List AnimationStep),
      (∀ s ∈ l, s.one_time_animation = false) →
      (l.foldl (stepLoop delta) st).1.1 = st.1.1 := by
  intro l
  induction l with
  | nil => intro st _; rfl
  | cons s ss ih =>
      intro st hl
      rw [List.foldl_cons,
        ih _ (fun s' hs' => hl s' (List.mem_cons_of_mem _ hs'))]
      have hone := hl s (List.mem_cons_self _ _)
      unfold stepLoop
      by_cases hs : s.activated
      · simp [hs, hone]
      · simp [hs]

/-- One `animate` tick on a record free of one-shot steps keeps its
anchor and stays free of one-shot steps. -/
theorem animateOne_nofold (dt : ℚ) (a : Animation)
    (hno : ∀ st ∈ a.animations, st.one_time_animation = false) :
    (animateOne dt a).start = a.start ∧
    ∀ st ∈ (animateOne dt a).animations, st.one_time_animation = false := by
  constructor
  · show (a.animations.foldl (stepLoop dt) ((a.start, a.grid_pos, 0), [])).1.1 = a.start
    exact stepfold_fst_nofold dt a.animations _ hno
  · intro st hst
    rw [animateOne_animations] at hst
    obtain ⟨hmem, -⟩ := List.mem_filter.mp hst
    obtain ⟨s0, hs0, rfl⟩ := List.mem_map.mp hmem
    rw [(stepUpdate_fields dt s0).2.1]
    exact hno s0 hs0

/-- One `animate` tick on a registry free of one-shot steps keeps every
anchor and stays free of one-shot steps. -/
theorem animate_nofold (dt : ℚ) (h : AnimationHandler) (hno : NoOneShot h) :
    startsOf (h.animate dt) = startsOf h ∧ NoOneShot (h.animate dt) := by
  unfold AnimationHandler.animate
  cases hdis : h.disabled
  · simp only [Bool.false_eq_true, if_false]
    constructor
    · unfold startsOf
      dsimp only
      rw [List.map_map]
      apply List.map_congr_left
      intro a ha
      show (if a.activated then animateOne dt a else a).start = a.start
      by_cases hact : a.activated
      · rw [if_pos hact]
        exact (animateOne_nofold dt a (hno a ha)).1
      · rw [if_neg hact]
    · intro a' ha' st' hst'
      dsimp only at ha'
      obtain ⟨a, ha, rfl⟩ := List.mem_map.mp ha'
      by_cases hact : a.activated
      · rw [if_pos hact] at hst'
        exact (animateOne_nofold dt a (hno a ha)).2 st' hst'
      · rw [if_neg hact] at hst'
        exact hno a ha st' hst'
  · exact ⟨rfl, hno⟩

/-- Iterated `animate` on a registry free of one-shot steps keeps every
anchor forever. -/
theorem animate_iterate_nofold (dt : ℚ) (h : AnimationHandler)
    (hno : NoOneShot h) :
    ∀ k : ℕ,
      startsOf ((fun hh => hh.animate dt)^[k] h) = startsOf h ∧
      NoOneShot ((fun hh => hh.animate dt)^[k] h) := by
  intro k
  induction k with
  | zero => exact ⟨rfl, hno⟩
  | succ k ih =>
      rw [Function.iterate_succ_apply']
      exact ⟨(animate_nofold dt _ ih.2).1.trans ih.1,
        (animate_nofold dt _ ih.2).2⟩

/-- C4 evaluation helper: the concrete explosion of `c4State` queues the
single amplified non-one-shot step `c4ExplodedStep`. -/
theorem c4_explode_eval :
    explodeObject id id id id id c4State c4Handler 25 =
      some (c4State, c4ExplodedHandler) := by
  norm_num [explodeObject, transitionToObjectBase, VoxelHandler.get_object,
    List.find?, c4State, c4Object, c4Handler, c4Record, c4ExplodedHandler,
    c4ExplodedStep, assignStep, releaseStep, popLast?,
    AnimationHandler.set_animation, AnimationHandler.set_animation_state,
    modifyIdx, AnimationStep.new, List.range_succ, fibonacci_sphere,
    List.foldlM_cons, List.foldlM_nil, Option.bind_eq_bind, Option.some_bind,
    Q3.sub_def, Q3.smul_def, Q3.zero_def]

/-- C4 evaluation helper: one `animate` tick with `dt = 3` saturates the
explosion step's time at 1, leaving the anchor at the origin while
`grid_pos` carries the full amplified displacement. -/
theorem c4_tick_eval :
    (c4ExplodedHandler.animate 3).movement_list.map Animation.grid_pos =
      [⟨125, 0, 0⟩] ∧
    (c4ExplodedHandler.animate 3).movement_list.map Animation.start =
      [⟨0, 0, 0⟩] := by
  norm_num [AnimationHandler.animate, animateOne, stepLoop,
    AnimationTransition.lerp, ease_in_ease_out_cubic, clampQ,
    c4ExplodedHandler, c4ExplodedStep, c4Record, Q3.add_def, Q3.sub_def,
    Q3.smul_def, Q3.zero_def, show (0 : Q3).x = 0 from rfl,
    show (0 : Q3).y = 0 from rfl, show (0 : Q3).z = 0 from rfl]

/-- C4 counterexample: exploding the fully-assembled one-cube shape and
advancing until the (non-one-shot) step's time reaches 1.0 leaves `start`
unchanged but `grid_pos` — recomputed each tick as `start` plus the live
step displacement — does not return to its pre-explosion value. -/
theorem C4_counterexample :
    explodeObject id id id id id c4State c4Handler 25 =
      some (c4State, c4ExplodedHandler) ∧
    ((fun hh => AnimationHandler.animate hh 3)^[1]
        c4ExplodedHandler).movement_list.map Animation.start =
      c4Handler.movement_list.map Animation.start ∧
    ((fun hh => AnimationHandler.animate hh 3)^[1]
        c4ExplodedHandler).movement_list.map Animation.grid_pos ≠
      c4Handler.movement_list.map Animation.grid_pos := by
  refine ⟨c4_explode_eval, ?_, ?_⟩
  · rw [Function.iterate_one, c4_tick_eval.2]
    simp [c4Handler, c4Record]
  · rw [Function.iterate_one, c4_tick_eval.1]
    simp only [c4Handler, c4Record, List.map_cons, List.map_nil, ne_eq,
      List.cons.injEq, V3.mk.injEq]
    norm_num

/-- C4 (amended): for every assignment-engine state and registry whose
step lists hold no one-shot steps, a successful `explode_object(amplify)`
queues only non-one-shot step animations, and advancing the registry any
number of ticks afterwards leaves every record's anchor `start` equal to
its value from before the explosion.  (`grid_pos`, by contrast, is
recomputed every tick as `start` plus the live step displacements, so at
completion it reflects the amplified displacement rather than its
pre-explosion value — see the counterexample.) -/
theorem C4_explode_preserves_start {T : Type} [DecidableEq T]
    (sq co si : ℚ → ℚ) (sf1 sf2 : List ℕ → List ℕ) (s : VoxelHandler T)
    (h : AnimationHandler) (amplify dt : ℚ) (s' : VoxelHandler T)
    (h' : AnimationHandler) (hno : NoOneShot h)
    (hres : explodeObject sq co si sf1 sf2 s h amplify = some (s', h')) :
    NoOneShot h' ∧
    ∀ k : ℕ, startsOf ((fun hh => hh.animate dt)^[k] h') = startsOf h := by
  unfold explodeObject at hres
  cases hcv : s.current_voxel with
  | none =>
      rw [hcv] at hres
      exact Option.noConfusion hres
  | some v =>
      rw [hcv] at hres
      obtain ⟨hst, hfn⟩ :=
        transitionBase_pres sq co si sf1 sf2 s v h amplify false s' h' hres
      have hno' := hfn hno
      exact ⟨hno', fun k =>
        ((animate_iterate_nofold dt h' hno' k).1).trans hst⟩

theorem C4_explode_preserves_start_witness :
    NoOneShot c4Handler ∧ NoOneShot c4ExplodedHandler ∧
    startsOf ((fun hh => AnimationHandler.animate hh 3)^[1]
        c4ExplodedHandler) = startsOf c4Handler := by
  have hno : NoOneShot c4Handler := by
    intro a ha st hst
    simp only [c4Handler, List.mem_singleton] at ha
    subst ha
    simp [c4Record] at hst
  have h := C4_explode_preserves_start id id id id id c4State c4Handler 25 3
    c4State c4ExplodedHandler hno c4_explode_eval
  exact ⟨hno, h.1, h.2 1⟩
